import Mathlib

/-!
Verification of the kibble repository (src/connection.rs, src/types.rs)
against its natural-language specification.

The Rust code is shallowly embedded: machine integers become `Nat`/`Int`
with two's-complement wrapping made explicit (`wrap32`, `a32`, `s32`, `m32`,
`toU64`) at the operations where the Rust program can leave the machine
range; byte buffers become `List Nat`; Rust `String`s become Lean `String`s
with an explicit UTF-8 encoder for byte-level output; IEEE-754 doubles are
embedded through their exact bit pattern for the integer inputs the code
feeds them (`intToF64Bits`).  Rust `Display` of unsigned/signed integers is
modelled by `natStr`/`intStr` (plain decimal digits), and the zero-padding
format specifiers by `natPad`/`intPad`.
-/

namespace Kibble

/-- Little-endian byte list of the low `k` bytes of `n` (models Rust
`to_le_bytes` on an unsigned value, truncating to `k` bytes). -/
def natLeBytes : Nat → Nat → List Nat
  | 0, _ => []
  | k + 1, n => n % 256 :: natLeBytes k (n / 256)

/-- Reads a little-endian byte list back into a natural number. -/
def leBytesToNat : List Nat → Nat
  | [] => 0
  | b :: bs => b + 256 * leBytesToNat bs

/-- Two's-complement image of an `i64` inside `u64` (the byte pattern of
`v.to_le_bytes`). -/
def toU64 (v : Int) : Nat := (v % 2 ^ 64).toNat

/-- Recovers an `i64` from its two's-complement `u64` image. -/
def ofU64 (n : Nat) : Int := if n < 2 ^ 63 then (n : Int) else (n : Int) - 2 ^ 64

/-- Two's-complement wrap into the `i32` range, the release-mode result of an
overflowing `i32` operation. -/
def wrap32 (v : Int) : Int := (v + 2 ^ 31) % 2 ^ 32 - 2 ^ 31

/-- Wrapping `u32` addition. -/
def a32 (x y : Nat) : Nat := (x + y) % 2 ^ 32

/-- Wrapping `u32` subtraction. -/
def s32 (x y : Nat) : Nat := (((x : Int) - (y : Int)) % 2 ^ 32).toNat

/-- Wrapping `u32` multiplication. -/
def m32 (x y : Nat) : Nat := x * y % 2 ^ 32

/-- The character of a decimal digit. -/
def digitChar (d : Nat) : Char := Char.ofNat (48 + d)

/-- Decimal digits with explicit fuel, so that the definition is structural
and reduces in the kernel; `fuel ≥ n` is always enough. -/
def natCharsF : Nat → Nat → List Char
  | 0, _ => []
  | _, 0 => []
  | f + 1, n + 1 => natCharsF f ((n + 1) / 10) ++ [digitChar ((n + 1) % 10)]

/-- Decimal digits of `n`, most significant first (empty for `0`). -/
def natChars (n : Nat) : List Char := natCharsF n n

/-- Rust `Display` of an unsigned integer. -/
def natStr (n : Nat) : String := if n = 0 then "0" else String.mk (natChars n)

/-- Rust `Display` of a signed integer. -/
def intStr (v : Int) : String := (if v < 0 then "-" else "") ++ natStr v.natAbs

/-- Left-pad a character list with `'0'` to width `w` (no-op when already at
least that long), as the Rust `{:0w$}` format does for unsigned values. -/
def padZeros (w : Nat) (s : List Char) : List Char :=
  List.replicate (w - s.length) '0' ++ s

/-- Rust `{:0w$}` formatting of an unsigned integer. -/
def natPad (w : Nat) (n : Nat) : String := String.mk (padZeros w (natStr n).toList)

/-- Rust `{:0w$}` formatting of a signed integer: the sign counts toward the
width and the zeros go between the sign and the digits. -/
def intPad (w : Nat) (v : Int) : String :=
  if v < 0 then String.mk ('-' :: padZeros (w - 1) (natStr v.natAbs).toList)
  else natPad w v.natAbs

/-- Numeric value of a decimal digit string (models `str::parse` on all-digit
input). -/
def digitsToNat (cs : List Char) : Nat := cs.foldl (fun a c => 10 * a + (c.toNat - 48)) 0

/-! ## src/types.rs -/

/-- `decimal_to_string` from src/types.rs, lines 1-14.  `value` is an `i128`,
`scale` a `u8`; `10u128.pow(scale)` is embedded as the exact power (its u128
overflow is treated separately by `decimal_to_string_checked`). -/
def decimal_to_string (value : Int) (scale : Nat) : String :=
  if scale = 0 then intStr value
  else
    let abs := value.natAbs
    let sign := if value < 0 then "-" else ""
    let divisor := 10 ^ scale
    let integer := abs / divisor
    let fraction := abs % divisor
    sign ++ natStr integer ++ "." ++ natPad scale fraction

/-- The year/month/day triple computed by `unix_days_to_iso` (src/types.rs,
lines 16-26) under release-mode machine semantics: the `i32` addition
`unix_days + 719468` and the subtraction feeding the negative-era branch
wrap (`wrap32`), the `as u32` cast takes the value mod `2^32` (the wrapping
of the intermediate i32 multiply and subtract composes into that same mod),
and the `u32` operations that can leave the range wrap (`a32`/`s32`/`m32`).
`era * 400`, `yoe as i32` and `y + 1` cannot overflow: `era.natAbs < 14700`
because its numerator is an `i32`, and `yoe < 2^32 / 365`. -/
def unix_days_civil (unix_days : Int) : Int × Nat × Nat :=
  let days := wrap32 (unix_days + 719468)
  let era := Int.tdiv (if 0 ≤ days then days else wrap32 (days - 146096)) 146097
  let doe : Nat := ((days - era * 146097) % 2 ^ 32).toNat
  let yoe := s32 (a32 (s32 doe (doe / 1460)) (doe / 36524)) (doe / 146096) / 365
  let y : Int := (yoe : Int) + era * 400
  let doy := s32 doe (s32 (a32 (m32 365 yoe) (yoe / 4)) (yoe / 100))
  let mp := a32 (m32 5 doy) 2 / 153
  let d := a32 (s32 doy (a32 (m32 153 mp) 2 / 5)) 1
  let m := if mp < 10 then mp + 3 else mp - 9
  (if m ≤ 2 then y + 1 else y, m, d)

/-- `unix_days_to_iso` from src/types.rs: formats `unix_days_civil` as
`YYYY-MM-DD` with `{:04}-{:02}-{:02}`. -/
def unix_days_to_iso (unix_days : Int) : String :=
  let c := unix_days_civil unix_days
  intPad 4 c.1 ++ "-" ++ natPad 2 c.2.1 ++ "-" ++ natPad 2 c.2.2

/-- `nanos_to_time_str` from src/types.rs, lines 30-42 (`nanos` is a `u64`;
no u64 operation in the body can overflow). -/
def nanos_to_time_str (nanos : Nat) : String :=
  let total_secs := nanos / 1000000000
  let h := total_secs / 3600
  let m := total_secs % 3600 / 60
  let s := total_secs % 60
  let frac := nanos % 1000000000
  if frac = 0 then natPad 2 h ++ ":" ++ natPad 2 m ++ ":" ++ natPad 2 s
  else natPad 2 h ++ ":" ++ natPad 2 m ++ ":" ++ natPad 2 s ++ "." ++ natPad 7 (frac / 100)

/-- `micros_to_iso` from src/types.rs, lines 44-58.  `div_euclid`/`rem_euclid`
are Lean's `Int.ediv`/`Int.emod`; the `as i32` cast of `days` is exact because
`|total_secs| ≤ 2^63 / 86400 < 2^31 · 86400` gives `|days| < 2^31`. -/
def micros_to_iso (micros : Int) : String :=
  let total_secs := micros / 1000000
  let frac := (micros % 1000000).toNat
  let days := total_secs / 86400
  let day_secs := (total_secs % 86400).toNat
  let date := unix_days_to_iso days
  let h := day_secs / 3600
  let m := day_secs % 3600 / 60
  let s := day_secs % 60
  if frac = 0 then date ++ "T" ++ natPad 2 h ++ ":" ++ natPad 2 m ++ ":" ++ natPad 2 s
  else date ++ "T" ++ natPad 2 h ++ ":" ++ natPad 2 m ++ ":" ++ natPad 2 s ++ "." ++ natPad 6 frac

/-- `micros_offset_to_iso` from src/types.rs, lines 60-69 (`offset_minutes`
is an `i16`). -/
def micros_offset_to_iso (micros offset_minutes : Int) : String :=
  let base := micros_to_iso micros
  if offset_minutes = 0 then base ++ "Z"
  else
    let sign := if 0 ≤ offset_minutes then "+" else "-"
    let abs := offset_minutes.natAbs
    base ++ sign ++ natPad 2 (abs / 60) ++ ":" ++ natPad 2 (abs % 60)

/-! ## src/connection.rs: JsValueWrapper and the row extraction in Client::query -/

/-- `JsValueWrapper` (src/connection.rs, lines 348-355).  The `F64` payload is
carried as the Rust `Display` rendering of the double: the code under
verification never computes with it, only moves or prints it. -/
inductive JsVal where
  | vnull
  | vbool (b : Bool)
  | vi64 (v : Int)
  | vf64 (disp : String)
  | vstr (s : String)
  | vbytes (b : List Nat)
deriving DecidableEq

/-- The result-set extraction in `Client::query` (src/connection.rs, lines
594-623): `num_rows` is `values.len() / cols_per_row` when the column count
is positive and `0` otherwise, and row `r` is built from the cells at flat
indexes `r * cols_per_row + c` for `c < cols_per_row`.  `List.getD` models
the vector indexing, which is always in bounds here because
`r * cols_per_row + c < num_rows * cols_per_row ≤ values.len()` (the
`mem::replace` with `Null` only affects the source buffer, which is dropped).
There is no failure path: the code returns `Ok` on any buffer length. -/
def query_extract_rows (cols_per_row : Nat) (values : List JsVal) : List (List JsVal) :=
  let num_rows := if 0 < cols_per_row then values.length / cols_per_row else 0
  (List.range num_rows).map fun r =>
    (List.range cols_per_row).map fun c => values.getD (r * cols_per_row + c) .vnull

/-! ## IEEE-754 binary64 bit model for the integers the collector feeds it -/

/-- Structural binary logarithm with fuel (`fuel ≥ n` suffices), evaluable by
the kernel. -/
def log2F : Nat → Nat → Nat
  | 0, _ => 0
  | f + 1, n => if 2 ≤ n then log2F f (n / 2) + 1 else 0

/-- Position of the leading binary digit of `n` (0 for `n ≤ 1`). -/
def nlog2 (n : Nat) : Nat := log2F n n

/-- Round-to-nearest-even of `n / 2^sh`, the IEEE-754 default rounding mode
applied by Rust `as f64`. -/
def rne (n sh : Nat) : Nat :=
  if sh = 0 then n
  else
    let q := n / 2 ^ sh
    let r := n % 2 ^ sh
    let half := 2 ^ (sh - 1)
    if half < r ∨ (r = half ∧ q % 2 = 1) then q + 1 else q

/-- IEEE-754 binary64 bit pattern of the double nearest to the integer `v`
(round to nearest, ties to even); this is Rust `v as f64` for `i64` inputs,
all of which are finite and normal in binary64. -/
def intToF64Bits (v : Int) : Nat :=
  let n := v.natAbs
  if n = 0 then 0
  else
    let s : Nat := if v < 0 then 1 else 0
    let e := nlog2 n
    if e ≤ 52 then
      s * 2 ^ 63 + (e + 1023) * 2 ^ 52 + (n * 2 ^ (52 - e) - 2 ^ 52)
    else
      let q := rne n (e - 52)
      if q = 2 ^ 53 then s * 2 ^ 63 + (e + 1 + 1023) * 2 ^ 52
      else s * 2 ^ 63 + (e + 1023) * 2 ^ 52 + (q - 2 ^ 52)

/-- Integer value of an integer-valued binary64 bit pattern (truncating on
non-integer-valued patterns, which the verified statements never produce). -/
def f64BitsToInt (b : Nat) : Int :=
  if b % 2 ^ 63 = 0 then 0
  else
    let s := b / 2 ^ 63
    let expField := b / 2 ^ 52 % 2 ^ 11
    let mant := b % 2 ^ 52
    let e := expField - 1023
    let mag : Nat :=
      if e ≤ 52 then (2 ^ 52 + mant) / 2 ^ (52 - e) else (2 ^ 52 + mant) * 2 ^ (e - 52)
    if s = 1 then -(mag : Int) else (mag : Int)

/-! ## FastRowCollector::write_i64 (src/connection.rs, lines 204-212) -/

/-- The cell bytes appended by `FastRowCollector::write_i64`: tag 3 and the
double's bytes when `v.unsigned_abs() <= 1 << 53`, else tag 4 and the raw
little-endian two's-complement bytes. -/
def write_i64_cell (v : Int) : List Nat :=
  if v.natAbs ≤ 2 ^ 53 then 3 :: natLeBytes 8 (intToF64Bits v)
  else 4 :: natLeBytes 8 (toU64 v)

/-! ## FastRowCollector (src/connection.rs, lines 97-304) -/

/-- `tabby::ColumnType`, the wire column-type enumeration consumed by
`col_type_id` and `col_type_name`. -/
inductive ColumnType where
  | Null | Bit | Bitn | Int1 | Int2 | Int4 | Int8 | Intn
  | Float4 | Float8 | Floatn
  | Datetime | Datetime2 | Datetime4 | Datetimen | DatetimeOffsetn
  | Daten | Timen | Decimaln | Numericn | Guid
  | NVarchar | NChar | NText | BigVarChar | BigChar | Text
  | BigVarBin | BigBinary | Image | Xml | Money | Money4 | Udt | SSVariant
deriving DecidableEq

/-- `col_type_id` (src/connection.rs, lines 275-304). -/
def col_type_id : ColumnType → Nat
  | .Null => 0
  | .Bit | .Bitn => 1
  | .Int1 => 2
  | .Int2 => 3
  | .Int4 => 4
  | .Int8 => 5
  | .Intn => 6
  | .Float4 => 7
  | .Float8 => 8
  | .Floatn => 9
  | .Datetime | .Datetime2 | .Datetime4 | .Datetimen => 10
  | .DatetimeOffsetn => 11
  | .Daten => 12
  | .Timen => 13
  | .Decimaln | .Numericn => 14
  | .Guid => 15
  | .NVarchar | .NChar | .NText => 16
  | .BigVarChar | .BigChar | .Text => 17
  | .BigVarBin | .BigBinary | .Image => 18
  | .Xml => 19
  | .Money | .Money4 => 20
  | .Udt => 21
  | .SSVariant => 22

/-- UTF-8 encoding of one character (Rust strings are UTF-8; `str::len` is
the byte count of this encoding). -/
def utf8Char (c : Char) : List Nat :=
  let n := c.toNat
  if n < 128 then [n]
  else if n < 2048 then [192 + n / 64, 128 + n % 64]
  else if n < 65536 then [224 + n / 4096, 128 + n / 64 % 64, 128 + n % 64]
  else [240 + n / 262144, 128 + n / 4096 % 64, 128 + n / 64 % 64, 128 + n % 64]

/-- UTF-8 bytes of a string. -/
def utf8Bytes (s : String) : List Nat := (s.data.map utf8Char).flatten

/-- One lowercase hexadecimal digit. -/
def hexChar (d : Nat) : Char := if d < 10 then digitChar d else Char.ofNat (87 + d)

/-- Two lowercase hex digits of a byte. -/
def byteHex (b : Nat) : List Char := [hexChar (b / 16), hexChar (b % 16)]

/-- `uuid::Uuid::to_string` on 16 raw bytes: lowercase hex in byte order,
hyphenated 8-4-4-4-12. -/
def guidToStr (g : List Nat) : String :=
  String.mk (((g.take 4).map byteHex).flatten ++
    '-' :: (((g.drop 4).take 2).map byteHex).flatten ++
    '-' :: (((g.drop 6).take 2).map byteHex).flatten ++
    '-' :: (((g.drop 8).take 2).map byteHex).flatten ++
    '-' :: ((g.drop 10).map byteHex).flatten)

/-- The mutable state of `FastRowCollector` (src/connection.rs, lines
107-117).  The `HashMap<String, u32>` is modelled as an association list
with unique keys, queried by `lookupMap`. -/
structure FastState where
  columns : List (ColumnType × String)
  cols_per_row : Nat
  rows_affected : Int
  row_count : Nat
  cell_buf : List Nat
  string_table : List String
  string_map : List (String × Nat)
deriving DecidableEq

/-- `FastRowCollector::default()`: empty buffers (capacities are
irrelevant to the values). -/
def FastState.init : FastState := ⟨[], 0, 0, 0, [], [], []⟩

/-- `HashMap::get` on the association-list model of the interning map. -/
def lookupMap : List (String × Nat) → String → Option Nat
  | [], _ => none
  | (k, v) :: rest, s => if k = s then some v else lookupMap rest s

/-- `FastRowCollector::intern_string` (src/connection.rs, lines 134-143):
return the table index of an already-interned string, else append the
string at index `string_table.len()` and record it in the map. -/
def intern_string (st : FastState) (s : String) : Nat × FastState :=
  match lookupMap st.string_map s with
  | some idx => (idx, st)
  | none =>
    let idx := st.string_table.length
    (idx, { st with string_map := (s, idx) :: st.string_map,
                    string_table := st.string_table ++ [s] })

/-- One `RowWriter` cell-write event driven into `FastRowCollector`.
Doubles (`write_f32`/`write_f64`) are carried as the 64-bit IEEE-754 bit
pattern of the (widened) double, which is exactly what `to_le_bytes`
serialises; `f32` to `f64` widening is lossless so the widened bits are the
event payload. -/
inductive Ev where
  | wnull
  | wbool (b : Bool)
  | wu8 (v : Nat)
  | wi16 (v : Int)
  | wi32 (v : Int)
  | wi64 (v : Int)
  | wf32 (bits : Nat)
  | wf64 (bits : Nat)
  | wstr (s : String)
  | wbytes (b : List Nat)
  | wguid (g : List Nat)
  | wdecimal (value : Int) (scale : Nat)
  | wdate (unix_days : Int)
  | wtime (nanos : Int)
  | wdatetime (micros : Int)
  | wdatetimeoffset (micros : Int) (offset_minutes : Int)

/-- Intern a string and append a tag-5 cell holding its 4-byte index. -/
def pushStrRef (st : FastState) (s : String) : FastState :=
  let r := intern_string st s
  { r.2 with cell_buf := r.2.cell_buf ++ 5 :: natLeBytes 4 r.1 }

/-- The `RowWriter` implementation of `FastRowCollector` (src/connection.rs,
lines 180-273), one cell write.  8/16/32-bit integers widen exactly to a
double (`intToF64Bits`); `write_i64` applies the `2^53` magnitude test
(`write_i64_cell`); `write_time` casts the `i64` nanoseconds to `u64`. -/
def applyEv (st : FastState) (e : Ev) : FastState :=
  match e with
  | .wnull => { st with cell_buf := st.cell_buf ++ [0] }
  | .wbool b => { st with cell_buf := st.cell_buf ++ [if b then 2 else 1] }
  | .wu8 v => { st with cell_buf := st.cell_buf ++ 3 :: natLeBytes 8 (intToF64Bits v) }
  | .wi16 v => { st with cell_buf := st.cell_buf ++ 3 :: natLeBytes 8 (intToF64Bits v) }
  | .wi32 v => { st with cell_buf := st.cell_buf ++ 3 :: natLeBytes 8 (intToF64Bits v) }
  | .wi64 v => { st with cell_buf := st.cell_buf ++ write_i64_cell v }
  | .wf32 bits => { st with cell_buf := st.cell_buf ++ 3 :: natLeBytes 8 bits }
  | .wf64 bits => { st with cell_buf := st.cell_buf ++ 3 :: natLeBytes 8 bits }
  | .wstr s => pushStrRef st s
  | .wbytes b => { st with cell_buf := st.cell_buf ++ 6 :: natLeBytes 4 b.length ++ b }
  | .wguid g => pushStrRef st (guidToStr g)
  | .wdecimal v sc => pushStrRef st (decimal_to_string v sc)
  | .wdate d => pushStrRef st (unix_days_to_iso d)
  | .wtime nanos => pushStrRef st (nanos_to_time_str ((nanos % 2 ^ 64).toNat))
  | .wdatetime mi => pushStrRef st (micros_to_iso mi)
  | .wdatetimeoffset mi off => pushStrRef st (micros_offset_to_iso mi off)

/-- `FastRowCollector::on_metadata`. -/
def on_metadata (cols : List (ColumnType × String)) (st : FastState) : FastState :=
  { st with columns := cols, cols_per_row := cols.length }

/-- `FastRowCollector::on_done` (src/connection.rs, lines 269-272): both
`rows_affected` and `row_count` are set from the `rows: u64` argument
(`as i64` resp. `as usize`). -/
def on_done (rows : Nat) (st : FastState) : FastState :=
  { st with rows_affected := ofU64 rows, row_count := rows }

/-- One column-directory entry of the encoded buffer: type tag, u16
little-endian byte length of the name, then the name bytes. -/
def colDirEntry (c : ColumnType × String) : List Nat :=
  col_type_id c.1 :: natLeBytes 2 (utf8Bytes c.2).length ++ utf8Bytes c.2

/-- One string-table entry of the encoded buffer: u32 little-endian byte
length, then the bytes. -/
def strTableEntry (s : String) : List Nat :=
  natLeBytes 4 (utf8Bytes s).length ++ utf8Bytes s

/-- `FastRowCollector::encode` (src/connection.rs, lines 145-177): header,
column directory, string table, then the accumulated cell buffer. -/
def encode (st : FastState) : List Nat :=
  natLeBytes 4 st.cols_per_row ++ natLeBytes 4 st.row_count ++
    natLeBytes 4 st.string_table.length ++ natLeBytes 8 (toU64 st.rows_affected) ++
    (st.columns.map colDirEntry).flatten ++
    (st.string_table.map strTableEntry).flatten ++
    st.cell_buf

/-! ## String-interning invariant (C5) -/

/-- Uppercase hexadecimal digit. -/
def hexCharU (d : Nat) : Char := if d < 10 then digitChar d else Char.ofNat (55 + d)

/-- Two uppercase hex digits of a byte (`{:02X}`; a byte is at most `0xff`,
so the width is always exactly 2). -/
def byteHexU (b : Nat) : List Char := [hexCharU (b / 16), hexCharU (b % 16)]

/-- `v.replace('\'', "''")`: double every single quote. -/
def escQuote (cs : List Char) : List Char :=
  (cs.map fun c => if c = '\'' then ['\'', '\''] else [c]).flatten

/-- `param_to_sql` (src/connection.rs, lines 754-775).  The `F64` arm is
`format!("{}", v)`, which is the `Display` rendering carried by the
`JsVal.vf64` payload. -/
def param_to_sql (p : JsVal) : String :=
  match p with
  | .vnull => "NULL"
  | .vbool b => if b then "1" else "0"
  | .vi64 v => intStr v
  | .vf64 disp => disp
  | .vstr v => String.mk ('N' :: '\'' :: escQuote v.data ++ ['\''])
  | .vbytes b => String.mk ('0' :: 'x' :: (b.map byteHexU).flatten)

/-- Scanner state of the `substitute_params` loop: between tokens, just
after an `@` whose successor has not been examined, inside a single-quoted
literal, or after `@`+`p`/`P` while decimal digits accumulate. -/
inductive ScanMode where
  | plain
  | sawAt
  | quote
  | par (pc : Char) (ds : List Char)

/-- Resolution of a parsed `@p<digits>` token: a 1-based index within the
argument list substitutes the escaped literal; an empty digit string (the
Rust `parse` error) or an out-of-range index is emitted verbatim.  (A digit
string overflowing `usize` is a Rust parse error and is also emitted
verbatim; here its huge value fails the range test, with the same output.) -/
def resolvePar (params : List JsVal) (pc : Char) (ds : List Char) : List Char :=
  if h : ds ≠ [] ∧ 1 ≤ digitsToNat ds ∧ digitsToNat ds ≤ params.length then
    (param_to_sql (params.get ⟨digitsToNat ds - 1, by omega⟩)).data
  else '@' :: pc :: ds

/-- The character scan of `substitute_params` (src/connection.rs, lines
712-749) as a state machine consuming one character per step; this is the
same left-to-right loop, with the `i`-based cursor replaced by the list
tail and the in-flight token held in the mode. -/
def substLoop (params : List JsVal) : ScanMode → List Char → List Char
  | .plain, [] => []
  | .sawAt, [] => ['@']
  | .quote, [] => []
  | .par pc ds, [] => resolvePar params pc ds
  | .plain, c :: rest =>
      if c = '@' then substLoop params .sawAt rest
      else if c = '\'' then c :: substLoop params .quote rest
      else c :: substLoop params .plain rest
  | .sawAt, c :: rest =>
      if c = 'p' ∨ c = 'P' then substLoop params (.par c []) rest
      else if c = '@' then '@' :: substLoop params .sawAt rest
      else if c = '\'' then '@' :: c :: substLoop params .quote rest
      else '@' :: c :: substLoop params .plain rest
  | .quote, c :: rest =>
      if c = '\'' then c :: substLoop params .plain rest
      else c :: substLoop params .quote rest
  | .par pc ds, c :: rest =>
      if c.isDigit then substLoop params (.par pc (ds ++ [c])) rest
      else if c = '@' then resolvePar params pc ds ++ substLoop params .sawAt rest
      else if c = '\'' then resolvePar params pc ds ++ c :: substLoop params .quote rest
      else resolvePar params pc ds ++ c :: substLoop params .plain rest

/-- `substitute_params` (src/connection.rs, lines 706-752). -/
def substitute_params (sql : String) (params : List JsVal) : String :=
  String.mk (substLoop params .plain sql.data)

/-! ## The proleptic-Gregorian calendar and civil-from-days (C7) -/

/-- Gregorian leap-year rule (astronomical year numbering, so valid for the
proleptic calendar including year 0 and negative years). -/
def isLeap (y : Int) : Bool := decide ((y % 4 = 0 ∧ ¬ y % 100 = 0) ∨ y % 400 = 0)

/-- Days in a Gregorian month. -/
def daysInMonthG (y : Int) (m : Nat) : Nat :=
  if m = 2 then (if isLeap y then 29 else 28)
  else if m = 4 ∨ m = 6 ∨ m = 9 ∨ m = 11 then 30 else 31

/-- Next day on the proleptic-Gregorian calendar. -/
def calSucc : Int × Nat × Nat → Int × Nat × Nat
  | (y, m, d) =>
    if d < daysInMonthG y m then (y, m, d + 1)
    else if m < 12 then (y, m + 1, 1)
    else (y + 1, 1, 1)

/-- The within-era part of civil-from-days: year-of-era (already carrying the
`+1` for January/February), month and day from the day-of-era. -/
def civil_inner (doe : Nat) : Nat × Nat × Nat :=
  let yoe := (doe - doe / 1460 + doe / 36524 - doe / 146096) / 365
  let doy := doe - (365 * yoe + yoe / 4 - yoe / 100)
  let mp := (5 * doy + 2) / 153
  let d := doy - (153 * mp + 2) / 5 + 1
  let m := if mp < 10 then mp + 3 else mp - 9
  (if m ≤ 2 then yoe + 1 else yoe, m, d)

/-- A second definition written from the spec's words, to compare the
machine code against: Howard Hinnant's civil-from-days with genuine floor
division (`Int el `/` and `%` are Euclidean, which for the positive divisor
146097 is floor division), no machine wrapping anywhere. -/
def civil_from_days_spec (z : Int) : Int × Nat × Nat :=
  let days := z + 719468
  let era := days / 146097
  let doe := (days % 146097).toNat
  let i := civil_inner doe
  (era * 400 + (i.1 : Int), i.2.1, i.2.2)

/-- The within-era part of `unix_days_civil` as the machine computes it
(wrapping u32 operations), as a function of the day-of-era. -/
def machine_inner (doe : Nat) : Nat × Nat × Nat :=
  let yoe := s32 (a32 (s32 doe (doe / 1460)) (doe / 36524)) (doe / 146096) / 365
  let doy := s32 doe (s32 (a32 (m32 365 yoe) (yoe / 4)) (yoe / 100))
  let mp := a32 (m32 5 doy) 2 / 153
  let d := a32 (s32 doy (a32 (m32 153 mp) 2 / 5)) 1
  let m := if mp < 10 then mp + 3 else mp - 9
  (if m ≤ 2 then yoe + 1 else yoe, m, d)

/-! ## Calendar correctness of civil-from-days

The finite content is checked by `decide` over at most 732 cases (year-of-era
table and month/day table); the unbounded lifts are Presburger arithmetic. -/

/-- Day-of-era at which year-of-era `y` starts (`365 y + y/4 - y/100`). -/
def gY (y : Nat) : Nat := 365 * y + y / 4 - y / 100

/-- The leap-day correction sum applied to a day-of-era before dividing by
365, exactly as in `civil_inner`. -/
def sY (x : Nat) : Nat := x - x / 1460 + x / 36524 - x / 146096

/-- The correction sum without the 400-year term. -/
def u2 (x : Nat) : Nat := x - x / 1460 + x / 36524

/-- Year-of-era of a day-of-era. -/
def yoeF (x : Nat) : Nat := sY x / 365

/-- Month and day from a day-of-year (March-based), exactly the `mp`
arithmetic of `civil_inner`. -/
def mdY (doy : Nat) : Nat × Nat :=
  let mp := (5 * doy + 2) / 153
  (if mp < 10 then mp + 3 else mp - 9, doy - (153 * mp + 2) / 5 + 1)

/-- Gregorian leap rule on era-relative (mod-400) year numbers. -/
def leapN (n : Nat) : Bool := decide ((n % 4 = 0 ∧ ¬ n % 100 = 0) ∨ n % 400 = 0)

/-- Month lengths with February at 29. -/
def dim29 (m : Nat) : Nat :=
  if m = 2 then 29 else if m = 4 ∨ m = 6 ∨ m = 9 ∨ m = 11 then 30 else 31

/-- Month lengths parameterised by a leap flag. -/
def dimB (b : Bool) (m : Nat) : Nat :=
  if m = 2 then (if b then 29 else 28) else dim29 m

/-- Length of year-of-era block `y` (its February belongs to year `y + 1`). -/
def lenN (y : Nat) : Nat := if leapN (y + 1) then 366 else 365

/-- `calSucc` on era-relative Nat years. -/
def natCalSucc : Nat × Nat × Nat → Nat × Nat × Nat
  | (yA, m, d) =>
    if d < dimB (leapN yA) m then (yA, m, d + 1)
    else if m < 12 then (yA, m + 1, 1)
    else (yA + 1, 1, 1)

/-- A day-of-year together with the year increment its month carries
(January and February count into the following civil year). -/
def advRel (doy : Nat) : Nat × Nat × Nat :=
  (if (mdY doy).1 ≤ 2 then 1 else 0, mdY doy)

/-- `natCalSucc` on (year-increment, month, day) triples, with the leap flag
of the February-carrying year supplied externally. -/
def succRel (b : Bool) : Nat × Nat × Nat → Nat × Nat × Nat
  | (rel, m, d) =>
    if d < dimB b m then (rel, m, d + 1)
    else if m < 12 then (rel, m + 1, 1)
    else (rel + 1, 1, 1)

/-! ## Decimal-rendering lemmas -/

theorem natCharsF_fuel : ∀ n f, n ≤ f → natCharsF f n = natChars n := by
  intro n
  induction n using Nat.strong_induction_on with
  | _ n ih =>
    match n with
    | 0 => intro f _; cases f <;> rfl
    | m + 1 =>
      intro f hf
      match f, hf with
      | g + 1, _ =>
        show natCharsF g ((m + 1) / 10) ++ _ = natChars (m + 1)
        have hlt : (m + 1) / 10 < m + 1 := Nat.div_lt_self (Nat.succ_pos m) (by omega)
        rw [ih _ hlt _ (by omega)]
        show _ = natCharsF (m + 1) (m + 1)
        show _ = natCharsF m ((m + 1) / 10) ++ _
        rw [ih _ hlt m (by omega)]

theorem natChars_succ (m : Nat) :
    natChars (m + 1) = natChars ((m + 1) / 10) ++ [digitChar ((m + 1) % 10)] := by
  show natCharsF (m + 1) (m + 1) = _
  show natCharsF m ((m + 1) / 10) ++ _ = _
  rw [natCharsF_fuel _ m (by
    have := Nat.div_lt_self (Nat.succ_pos m) (show 1 < 10 by omega)
    omega)]

theorem natChars_length : ∀ n k, n < 10 ^ k → (natChars n).length ≤ k := by
  intro n
  induction n using Nat.strong_induction_on with
  | _ n ih =>
    match n with
    | 0 => intro k _; simp [natChars, natCharsF]
    | m + 1 =>
      intro k hk
      match k with
      | 0 => omega
      | j + 1 =>
        rw [natChars_succ]
        have h10 : (10 : Nat) ^ (j + 1) = 10 * 10 ^ j := by ring
        have hq : (m + 1) / 10 < 10 ^ j := by omega
        have := ih _ (Nat.div_lt_self (Nat.succ_pos m) (by omega)) j hq
        simp only [List.length_append, List.length_cons, List.length_nil]
        omega

theorem toList_mk (xs : List Char) : (String.mk xs).toList = xs := rfl

theorem mk_append (xs ys : List Char) :
    String.mk xs ++ String.mk ys = String.mk (xs ++ ys) := rfl

theorem data_append (s t : String) : (s ++ t).data = s.data ++ t.data := rfl

theorem ext_of_data {s t : String} (h : s.data = t.data) : s = t := by
  cases s
  cases t
  exact congrArg String.mk h

theorem natStr_toList (n : Nat) :
    (natStr n).toList = if n = 0 then ['0'] else natChars n := by
  by_cases h : n = 0 <;> simp [natStr, h]

theorem natStr_length_le (n k : Nat) (hk : 0 < k) (h : n < 10 ^ k) :
    (natStr n).toList.length ≤ k := by
  rw [natStr_toList]
  by_cases h0 : n = 0
  · simp [h0]; omega
  · simp [h0]; exact natChars_length n k h

theorem padZeros_length (w : Nat) (s : List Char) (h : s.length ≤ w) :
    (padZeros w s).length = w := by
  simp [padZeros]; omega

theorem natPad_toList_length (w n : Nat) (hw : 0 < w) (h : n < 10 ^ w) :
    (natPad w n).toList.length = w := by
  rw [natPad, toList_mk, padZeros_length _ _ (natStr_length_le n w hw h)]

theorem padZeros_length_ge (w : Nat) (s : List Char) : w ≤ (padZeros w s).length := by
  simp [padZeros]
  omega

theorem append_empty_str (s : String) : s ++ "" = s := by
  apply ext_of_data
  rw [data_append]
  simp [show ("" : String).data = [] from rfl]

/-- C9: `nanos_to_time_str` renders zero-padded HH:MM:SS and appends a
7-digit fractional suffix, equal to the nanosecond remainder divided by 100
(truncating), exactly when the sub-second remainder is nonzero. -/
theorem c9_nanos_to_time_str_format (n : Nat) :
    ∃ h mi s frac : Nat,
      n = (h * 3600 + mi * 60 + s) * 1000000000 + frac ∧
      mi < 60 ∧ s < 60 ∧ frac < 1000000000 ∧
      nanos_to_time_str n =
        natPad 2 h ++ ":" ++ natPad 2 mi ++ ":" ++ natPad 2 s ++
          (if frac = 0 then "" else "." ++ natPad 7 (frac / 100)) ∧
      (natPad 2 mi).data.length = 2 ∧ (natPad 2 s).data.length = 2 ∧
      2 ≤ (natPad 2 h).data.length ∧
      (frac ≠ 0 → (natPad 7 (frac / 100)).data.length = 7) := by
  refine ⟨n / 1000000000 / 3600, n / 1000000000 % 3600 / 60, n / 1000000000 % 60,
    n % 1000000000, by omega, by omega, by omega, by omega, ?_, ?_, ?_, ?_, ?_⟩
  · unfold nanos_to_time_str
    by_cases hf : n % 1000000000 = 0
    · rw [if_pos hf, if_pos hf, append_empty_str]
    · rw [if_neg hf, if_neg hf]
      apply ext_of_data
      simp [data_append, List.append_assoc]
  · exact natPad_toList_length 2 _ (by omega) (by omega)
  · exact natPad_toList_length 2 _ (by omega) (by omega)
  · exact padZeros_length_ge 2 _
  · intro _
    exact natPad_toList_length 7 _ (by omega) (by omega)

/-- C8: `micros_to_iso` splits microseconds-since-epoch into whole days and
time-of-day by floor (Euclidean) division, so negative instants resolve to
the prior calendar day with a well-formed time, composes date, `T` and time,
and appends a 6-digit fractional suffix exactly when the microsecond
remainder within the second is nonzero; `micros_to_iso 0` is the epoch. -/
theorem c8_micros_to_iso_format :
    (∀ m : Int, ∃ (days : Int) (h mi s frac : Nat),
      m = (days * 86400 + ((h * 3600 + mi * 60 + s : Nat) : Int)) * 1000000 + (frac : Int) ∧
      h < 24 ∧ mi < 60 ∧ s < 60 ∧ frac < 1000000 ∧
      micros_to_iso m =
        unix_days_to_iso days ++ "T" ++ natPad 2 h ++ ":" ++ natPad 2 mi ++ ":" ++
          natPad 2 s ++ (if frac = 0 then "" else "." ++ natPad 6 frac) ∧
      (frac ≠ 0 → (natPad 6 frac).data.length = 6)) ∧
    micros_to_iso 0 = "1970-01-01T00:00:00" := by
  refine ⟨?_, by decide⟩
  intro m
  have h1 : 0 ≤ m % 1000000 := Int.emod_nonneg m (by omega)
  have h2 : m % 1000000 < 1000000 := Int.emod_lt_of_pos _ (by omega)
  have h3 : 0 ≤ m / 1000000 % 86400 := Int.emod_nonneg _ (by omega)
  have h4 : m / 1000000 % 86400 < 86400 := Int.emod_lt_of_pos _ (by omega)
  refine ⟨m / 1000000 / 86400, (m / 1000000 % 86400).toNat / 3600,
    (m / 1000000 % 86400).toNat % 3600 / 60, (m / 1000000 % 86400).toNat % 60,
    (m % 1000000).toNat, ?_, by omega, by omega, by omega, by omega, ?_, ?_⟩
  · have hmid : (m / 1000000 % 86400).toNat / 3600 * 3600 +
        (m / 1000000 % 86400).toNat % 3600 / 60 * 60 +
        (m / 1000000 % 86400).toNat % 60 = (m / 1000000 % 86400).toNat := by
      omega
    rw [hmid, Int.toNat_of_nonneg h3, Int.toNat_of_nonneg h1]
    omega
  · unfold micros_to_iso
    by_cases hf : (m % 1000000).toNat = 0
    · rw [if_pos hf, if_pos hf, append_empty_str]
    · rw [if_neg hf, if_neg hf]
      apply ext_of_data
      simp [data_append, List.append_assoc]
  · intro _
    exact natPad_toList_length 6 _ (by omega) (by omega)

theorem range_map_getD_eq_drop_take (values : List JsVal) (i C : Nat)
    (h : i + C ≤ values.length) :
    ((List.range C).map fun c => values.getD (i + c) .vnull) =
      (values.drop i).take C := by
  apply List.ext_getElem
  · simp
    omega
  · intro c h1 h2
    simp only [List.getElem_map, List.getElem_range, List.getElem_take, List.getElem_drop]
    rw [List.getD_eq_getElem]

theorem query_extract_rows_flatten (C : Nat) (values : List JsVal) :
    ∀ N, N * C ≤ values.length →
      ((List.range N).map fun r =>
        (List.range C).map fun c => values.getD (r * C + c) .vnull).flatten =
        values.take (N * C) := by
  intro N
  induction N with
  | zero => simp
  | succ n ih =>
    intro h
    rw [Nat.succ_mul] at h
    rw [List.range_succ, List.map_append, List.flatten_append,
      ih (by omega), show (n + 1) * C = n * C + C by ring, List.take_add]
    simp only [List.map_cons, List.map_nil, List.flatten_cons, List.flatten_nil,
      List.append_nil]
    rw [range_map_getD_eq_drop_take values (n * C) C (by omega)]

/-- C1 counterexample: with 2 declared columns and a 3-cell buffer (not a
multiple of 2), the extraction in `Client::query` does not fail: it returns
one complete row and silently drops the trailing partial cell. -/
theorem c1_counterexample :
    query_extract_rows 2 [JsVal.vi64 1, JsVal.vi64 2, JsVal.vi64 3] =
      [[JsVal.vi64 1, JsVal.vi64 2]] ∧ (3 : Nat) % 2 ≠ 0 := by
  decide

/-- C1 (amended): for a positive column count `C`, the extraction in
`Client::query` silently truncates the flat cell buffer: it returns
`⌊len / C⌋` rows of `C` cells each, consisting of the first `⌊len / C⌋ · C`
cells in order, and any trailing partial row is dropped without any error. -/
theorem c1_amended_query_extract_truncates (C : Nat) (values : List JsVal)
    (hC : 0 < C) :
    (query_extract_rows C values).length = values.length / C ∧
    (query_extract_rows C values).flatten = values.take (values.length / C * C) ∧
    ∀ row ∈ query_extract_rows C values, row.length = C := by
  refine ⟨by simp [query_extract_rows, hC], ?_, ?_⟩
  · unfold query_extract_rows
    rw [if_pos hC]
    exact query_extract_rows_flatten C values _ (Nat.div_mul_le_self _ _)
  · intro row hrow
    simp only [query_extract_rows, List.mem_map] at hrow
    obtain ⟨r, _, hr⟩ := hrow
    simp [← hr]

/-- Closed instance of C1's amended theorem at `C = 2` and a 3-cell buffer. -/
theorem c1_witness :
    (query_extract_rows 2 [JsVal.vi64 1, JsVal.vi64 2, JsVal.vi64 3]).length = 3 / 2 ∧
    (query_extract_rows 2 [JsVal.vi64 1, JsVal.vi64 2, JsVal.vi64 3]).flatten =
      [JsVal.vi64 1, JsVal.vi64 2, JsVal.vi64 3].take (3 / 2 * 2) ∧
    ∀ row ∈ query_extract_rows 2 [JsVal.vi64 1, JsVal.vi64 2, JsVal.vi64 3],
      row.length = 2 :=
  c1_amended_query_extract_truncates 2 _ (by omega)

theorem log2F_bounds : ∀ f n, n ≤ f → 1 ≤ n →
    2 ^ log2F f n ≤ n ∧ n < 2 ^ (log2F f n + 1) := by
  intro f
  induction f with
  | zero => intro n h1 h2; omega
  | succ f ih =>
    intro n hn h1
    show 2 ^ (if 2 ≤ n then log2F f (n / 2) + 1 else 0) ≤ n ∧
      n < 2 ^ ((if 2 ≤ n then log2F f (n / 2) + 1 else 0) + 1)
    by_cases h2 : 2 ≤ n
    · rw [if_pos h2]
      have := ih (n / 2) (by omega) (by omega)
      rw [pow_succ, pow_succ]
      omega
    · rw [if_neg h2]
      omega

theorem nlog2_bounds (n : Nat) (h : 1 ≤ n) :
    2 ^ nlog2 n ≤ n ∧ n < 2 ^ (nlog2 n + 1) :=
  log2F_bounds n n le_rfl h

theorem f64_roundtrip_small (v : Int) (h : v.natAbs ≤ 2 ^ 53) :
    f64BitsToInt (intToF64Bits v) = v := by
  by_cases h0 : v.natAbs = 0
  · have hv : v = 0 := by omega
    subst hv
    decide
  · set n := v.natAbs with hn
    have h1 : 1 ≤ n := by omega
    obtain ⟨hlo, hhi⟩ := nlog2_bounds n h1
    set e := nlog2 n with he
    have he53 : e ≤ 53 := by
      by_contra hgt
      have : 2 ^ 54 ≤ 2 ^ e := Nat.pow_le_pow_right (by omega) (by omega)
      omega
    by_cases hsmall : e ≤ 52
    · -- exactly representable with shifted mantissa
      have hsh : 2 ^ e * 2 ^ (52 - e) = 2 ^ 52 := by
        rw [← pow_add]
        congr 1
        omega
      have hsh1 : 2 ^ (e + 1) * 2 ^ (52 - e) = 2 ^ 53 := by
        rw [← pow_add]
        congr 1
        omega
      have hmlo : 2 ^ 52 ≤ n * 2 ^ (52 - e) := by
        calc 2 ^ 52 = 2 ^ e * 2 ^ (52 - e) := hsh.symm
        _ ≤ n * 2 ^ (52 - e) := Nat.mul_le_mul_right _ hlo
      have hmhi : n * 2 ^ (52 - e) < 2 ^ 53 := by
        calc n * 2 ^ (52 - e) < 2 ^ (e + 1) * 2 ^ (52 - e) :=
          (Nat.mul_lt_mul_right (Nat.pos_pow_of_pos _ (by omega))).mpr hhi
        _ = 2 ^ 53 := hsh1
      have hb : intToF64Bits v =
          (if v < 0 then 1 else 0) * 2 ^ 63 + (e + 1023) * 2 ^ 52 +
            (n * 2 ^ (52 - e) - 2 ^ 52) := by
        unfold intToF64Bits
        rw [if_neg h0, ← hn, ← he, if_pos hsmall]
      set s : Nat := if v < 0 then 1 else 0 with hs
      have hs1 : s ≤ 1 := by
        rw [hs]
        split <;> omega
      set m : Nat := n * 2 ^ (52 - e) - 2 ^ 52 with hm
      have hm52 : m < 2 ^ 52 := by omega
      have hef : e + 1023 < 2048 := by omega
      unfold f64BitsToInt
      rw [hb]
      have hu1 : (s * 2 ^ 63 + (e + 1023) * 2 ^ 52 + m) % 2 ^ 63 =
          (e + 1023) * 2 ^ 52 + m := by omega
      have hu2 : (s * 2 ^ 63 + (e + 1023) * 2 ^ 52 + m) / 2 ^ 63 = s := by omega
      have hu3 : (s * 2 ^ 63 + (e + 1023) * 2 ^ 52 + m) / 2 ^ 52 % 2 ^ 11 = e + 1023 := by
        omega
      have hu4 : (s * 2 ^ 63 + (e + 1023) * 2 ^ 52 + m) % 2 ^ 52 = m := by omega
      rw [if_neg (by omega)]
      simp only [hu2, hu3, hu4]
      have hee : e + 1023 - 1023 = e := by omega
      rw [hee, if_pos hsmall]
      have hmag : (2 ^ 52 + m) / 2 ^ (52 - e) = n := by
        have : 2 ^ 52 + m = n * 2 ^ (52 - e) := by omega
        rw [this]
        exact Nat.mul_div_cancel _ (Nat.pos_pow_of_pos _ (by omega))
      rw [hmag]
      rw [hs]
      split
      · next hneg =>
        rw [if_pos rfl]
        omega
      · next hpos =>
        rw [if_neg (by omega)]
        omega
    · -- e = 53, so n = 2^53 exactly
      have he53' : e = 53 := by omega
      have hn53 : n = 2 ^ 53 := by
        have : 2 ^ 53 ≤ n := by
          calc (2 : Nat) ^ 53 = 2 ^ e := by rw [he53']
          _ ≤ n := hlo
        omega
      have hq : rne n (e - 52) = 2 ^ 52 := by
        rw [he53', hn53]
        decide
      have hb : intToF64Bits v =
          (if v < 0 then 1 else 0) * 2 ^ 63 + (e + 1023) * 2 ^ 52 + 0 := by
        unfold intToF64Bits
        rw [if_neg h0, ← hn, ← he, if_neg hsmall, hq, if_neg (by decide)]
        omega
      set s : Nat := if v < 0 then 1 else 0 with hs
      have hs1 : s ≤ 1 := by
        rw [hs]
        split <;> omega
      have hef : e + 1023 < 2048 := by omega
      unfold f64BitsToInt
      rw [hb]
      have hu1 : (s * 2 ^ 63 + (e + 1023) * 2 ^ 52 + 0) % 2 ^ 63 =
          (e + 1023) * 2 ^ 52 + 0 := by omega
      have hu2 : (s * 2 ^ 63 + (e + 1023) * 2 ^ 52 + 0) / 2 ^ 63 = s := by omega
      have hu3 : (s * 2 ^ 63 + (e + 1023) * 2 ^ 52 + 0) / 2 ^ 52 % 2 ^ 11 = e + 1023 := by
        omega
      have hu4 : (s * 2 ^ 63 + (e + 1023) * 2 ^ 52 + 0) % 2 ^ 52 = 0 := by omega
      rw [if_neg (by omega)]
      simp only [hu2, hu3, hu4]
      have hee : e + 1023 - 1023 = e := by omega
      rw [hee, if_neg hsmall]
      have hmag : (2 ^ 52 + 0) * 2 ^ (e - 52) = n := by
        rw [he53', hn53]
        norm_num
      rw [hmag]
      rw [hs]
      split
      · next hneg =>
        rw [if_pos rfl]
        omega
      · next hpos =>
        rw [if_neg (by omega)]
        omega

theorem leBytesToNat_natLeBytes : ∀ (k n : Nat),
    leBytesToNat (natLeBytes k n) = n % 2 ^ (8 * k) := by
  intro k
  induction k with
  | zero => intro n; simp [natLeBytes, leBytesToNat]; omega
  | succ k ih =>
    intro n
    show n % 256 + 256 * leBytesToNat (natLeBytes k (n / 256)) = _
    rw [ih]
    have h8 : 2 ^ (8 * (k + 1)) = 256 * 2 ^ (8 * k) := by
      rw [show 8 * (k + 1) = 8 + 8 * k by ring, pow_add]
      norm_num
    rw [h8, Nat.mod_mul]

theorem ofU64_roundtrip (v : Int) (h1 : -(2 ^ 63) ≤ v) (h2 : v < 2 ^ 63) :
    ofU64 (leBytesToNat (natLeBytes 8 (toU64 v))) = v := by
  rw [leBytesToNat_natLeBytes]
  unfold toU64 ofU64
  have hnn : 0 ≤ v % 2 ^ 64 := Int.emod_nonneg v (by norm_num)
  have hlt : v % 2 ^ 64 < 2 ^ 64 := Int.emod_lt_of_pos v (by norm_num)
  split <;> omega

/-- C2: for every signed 64-bit integer written through
`FastRowCollector::write_i64`, magnitudes up to `2^53` are stored under the
double tag (3) and the stored IEEE-754 bit pattern decodes back to exactly
the original integer, while larger magnitudes are stored under the bigint
tag (4) whose raw little-endian 8-byte payload recovers the integer
exactly. -/
theorem c2_write_i64_double_boundary (v : Int) (h1 : -(2 ^ 63) ≤ v) (h2 : v < 2 ^ 63) :
    (v.natAbs ≤ 2 ^ 53 →
      write_i64_cell v = 3 :: natLeBytes 8 (intToF64Bits v) ∧
      f64BitsToInt (intToF64Bits v) = v) ∧
    (2 ^ 53 < v.natAbs →
      write_i64_cell v = 4 :: natLeBytes 8 (toU64 v) ∧
      ofU64 (leBytesToNat (natLeBytes 8 (toU64 v))) = v) := by
  constructor
  · intro hle
    exact ⟨by rw [write_i64_cell, if_pos hle], f64_roundtrip_small v hle⟩
  · intro hgt
    exact ⟨by rw [write_i64_cell, if_neg (by omega)], ofU64_roundtrip v h1 h2⟩

/-- Closed instance of C2 on both sides of the boundary: `v = -3` through the
double path and `v = 2^53 + 1` through the bigint path. -/
theorem c2_witness :
    f64BitsToInt (intToF64Bits (-3)) = -3 ∧
    ofU64 (leBytesToNat (natLeBytes 8 (toU64 (2 ^ 53 + 1)))) = 2 ^ 53 + 1 :=
  ⟨((c2_write_i64_double_boundary (-3) (by norm_num) (by norm_num)).1 (by norm_num)).2,
   ((c2_write_i64_double_boundary (2 ^ 53 + 1) (by norm_num) (by norm_num)).2
      (by norm_num)).2⟩

theorem intern_string_columns (st : FastState) (s : String) :
    (intern_string st s).2.columns = st.columns ∧
    (intern_string st s).2.cols_per_row = st.cols_per_row := by
  unfold intern_string
  cases lookupMap st.string_map s <;> simp

theorem applyEv_columns (st : FastState) (e : Ev) :
    (applyEv st e).columns = st.columns ∧
    (applyEv st e).cols_per_row = st.cols_per_row := by
  cases e <;>
    simp [applyEv, pushStrRef, intern_string_columns,
      (intern_string_columns _ _).1, (intern_string_columns _ _).2]

theorem foldl_applyEv_columns (evs : List Ev) : ∀ st : FastState,
    (evs.foldl applyEv st).columns = st.columns ∧
    (evs.foldl applyEv st).cols_per_row = st.cols_per_row := by
  induction evs with
  | nil => intro st; exact ⟨rfl, rfl⟩
  | cons e evs ih =>
    intro st
    rw [List.foldl_cons]
    rw [(ih (applyEv st e)).1, (ih (applyEv st e)).2]
    exact applyEv_columns st e

/-- C3 counterexample: drive metadata with one column, one complete row
(one `write_null`), then `on_done 5`.  The second header word of the encoded
buffer is 5 (the `on_done` argument), not 1 (the number of rows streamed):
`FastRowCollector` never counts streamed rows. -/
theorem c3_counterexample :
    (encode (on_done 5 (applyEv (on_metadata [(ColumnType.Int4, "id")] FastState.init)
        Ev.wnull))).take 8 = [1, 0, 0, 0, 5, 0, 0, 0] ∧
    [(1 : Nat), 0, 0, 0, 5, 0, 0, 0] ≠ [1, 0, 0, 0, 1, 0, 0, 0] := by
  constructor
  · rfl
  · decide

/-- C3 (amended): after `on_metadata` with columns `cols`, any sequence of
cell-write events, and `on_done a` (`a < 2^64` being a `u64`), `encode`
returns exactly: little-endian header `u32 cols.len`, `u32 a` (the `on_done`
argument, not the streamed row count), `u32 string-table length`, `i64 a`;
then the column directory (`u8` type tag, `u16` name byte length, name
bytes); then the string table (`u32` length-prefixed UTF-8 entries); then
the accumulated cell stream. -/
theorem c3_amended_encode_layout (cols : List (ColumnType × String)) (evs : List Ev)
    (a : Nat) (ha : a < 2 ^ 64) :
    encode (on_done a (evs.foldl applyEv (on_metadata cols FastState.init))) =
      natLeBytes 4 cols.length ++ natLeBytes 4 a ++
      natLeBytes 4 (evs.foldl applyEv (on_metadata cols FastState.init)).string_table.length ++
      natLeBytes 8 a ++
      (cols.map colDirEntry).flatten ++
      ((evs.foldl applyEv (on_metadata cols FastState.init)).string_table.map
        strTableEntry).flatten ++
      (evs.foldl applyEv (on_metadata cols FastState.init)).cell_buf := by
  have hc := foldl_applyEv_columns evs (on_metadata cols FastState.init)
  have hround : toU64 (ofU64 a) = a := by
    unfold toU64 ofU64
    split <;> omega
  unfold encode on_done
  simp only []
  rw [hround, hc.1, hc.2]
  rfl

/-- Closed instance of C3's amended theorem at one column, one null cell,
`on_done 5`. -/
theorem c3_witness :
    encode (on_done 5 ([Ev.wnull].foldl applyEv
        (on_metadata [(ColumnType.Int4, "id")] FastState.init))) =
      natLeBytes 4 1 ++ natLeBytes 4 5 ++
      natLeBytes 4 ([Ev.wnull].foldl applyEv
        (on_metadata [(ColumnType.Int4, "id")] FastState.init)).string_table.length ++
      natLeBytes 8 5 ++
      ([((ColumnType.Int4, "id") : ColumnType × String)].map colDirEntry).flatten ++
      (([Ev.wnull].foldl applyEv
        (on_metadata [(ColumnType.Int4, "id")] FastState.init)).string_table.map
          strTableEntry).flatten ++
      ([Ev.wnull].foldl applyEv
        (on_metadata [(ColumnType.Int4, "id")] FastState.init)).cell_buf := by
  have h := c3_amended_encode_layout [(ColumnType.Int4, "id")] [Ev.wnull] 5 (by norm_num)
  simpa using h

theorem substLoop_digits (params : List JsVal) (pc : Char) :
    ∀ (ds' : List Char), (∀ c ∈ ds', c.isDigit) → ∀ (ds rest : List Char),
      substLoop params (.par pc ds) (ds' ++ rest) =
        substLoop params (.par pc (ds ++ ds')) rest := by
  intro ds'
  induction ds' with
  | nil => intro _ ds rest; simp
  | cons c cs ih =>
    intro hd ds rest
    have hc : c.isDigit := hd c (by simp)
    show (if c.isDigit then substLoop params (.par pc (ds ++ [c])) (cs ++ rest)
      else _) = _
    rw [if_pos hc, ih (fun x hx => hd x (by simp [hx])) (ds ++ [c]) rest]
    simp

theorem substLoop_par_exit (params : List JsVal) (pc : Char) (ds rest : List Char)
    (h : ∀ c ∈ rest.head?, c.isDigit = false) :
    substLoop params (.par pc ds) rest =
      resolvePar params pc ds ++ substLoop params .plain rest := by
  cases rest with
  | nil => simp [substLoop]
  | cons c rest' =>
    have hc : ¬ (c.isDigit = true) := by
      have := h c (by simp)
      simp [this]
    simp only [substLoop]
    rw [if_neg hc]
    by_cases h1 : c = '@'
    · rw [if_pos h1]
      rw [if_pos h1]
    · rw [if_neg h1]
      by_cases h2 : c = '\''
      · rw [if_pos h2]
        rw [if_neg h1, if_pos h2]
      · rw [if_neg h2]
        rw [if_neg h1, if_neg h2]

theorem substLoop_at_p (params : List JsVal) (pc : Char) (rest : List Char)
    (hpc : pc = 'p' ∨ pc = 'P') :
    substLoop params .plain ('@' :: pc :: rest) = substLoop params (.par pc []) rest := by
  show (if ('@' : Char) = '@' then substLoop params .sawAt (pc :: rest) else _) = _
  rw [if_pos rfl]
  show (if pc = 'p' ∨ pc = 'P' then substLoop params (.par pc []) rest else _) = _
  rw [if_pos hpc]

theorem substLoop_quote_copy (params : List JsVal) :
    ∀ (body rest : List Char), (∀ c ∈ body, ¬ c = '\'') →
      substLoop params .quote (body ++ '\'' :: rest) =
        body ++ '\'' :: substLoop params .plain rest := by
  intro body
  induction body with
  | nil =>
    intro rest _
    show (if ('\'' : Char) = '\'' then _ else _) = _
    rw [if_pos rfl]
    rfl
  | cons c cs ih =>
    intro rest hb
    have hc : ¬ c = '\'' := hb c (by simp)
    show (if c = '\'' then c :: substLoop params .plain (cs ++ '\'' :: rest)
      else c :: substLoop params .quote (cs ++ '\'' :: rest)) = _
    rw [if_neg hc, ih rest (fun x hx => hb x (by simp [hx]))]
    rfl

/-- C4: `substitute_params` scans the template left to right tracking
single-quoted literals.  Outside a literal, an `@` followed
case-insensitively by `p` and one or more decimal digits naming a 1-indexed
argument within range is replaced by the escaped literal rendering of that
argument; an out-of-range or malformed token is copied through verbatim.
Inside a single-quoted literal everything is copied unchanged up to the
closing quote.  In particular the template
`SELECT * FROM t WHERE id=@p1 AND name='literal @p1'` with one string
argument substitutes only the first `@p1`. -/
theorem c4_substitute_params_scanner :
    (∀ (params : List JsVal) (pc : Char) (ds rest : List Char),
      (pc = 'p' ∨ pc = 'P') → ds ≠ [] → (∀ c ∈ ds, c.isDigit) →
      (∀ c ∈ rest.head?, c.isDigit = false) →
      (∀ h : 1 ≤ digitsToNat ds ∧ digitsToNat ds ≤ params.length,
        substLoop params .plain ('@' :: pc :: (ds ++ rest)) =
          (param_to_sql (params.get ⟨digitsToNat ds - 1, by omega⟩)).data ++
            substLoop params .plain rest) ∧
      (¬ (1 ≤ digitsToNat ds ∧ digitsToNat ds ≤ params.length) →
        substLoop params .plain ('@' :: pc :: (ds ++ rest)) =
          '@' :: pc :: ds ++ substLoop params .plain rest)) ∧
    (∀ (params : List JsVal) (body rest : List Char),
      (∀ c ∈ body, ¬ c = '\'') →
      substLoop params .plain ('\'' :: body ++ '\'' :: rest) =
        '\'' :: body ++ '\'' :: substLoop params .plain rest) ∧
    substitute_params "SELECT * FROM t WHERE id=@p1 AND name='literal @p1'"
        [JsVal.vstr "x"] =
      "SELECT * FROM t WHERE id=N'x' AND name='literal @p1'" := by
  refine ⟨?_, ?_, by decide⟩
  · intro params pc ds rest hpc hne hdig hhead
    have hsteps : substLoop params .plain ('@' :: pc :: (ds ++ rest)) =
        resolvePar params pc ds ++ substLoop params .plain rest := by
      rw [substLoop_at_p params pc _ hpc,
        substLoop_digits params pc ds hdig [] rest]
      exact substLoop_par_exit params pc ds rest hhead
    constructor
    · intro h
      rw [hsteps]
      unfold resolvePar
      rw [dif_pos ⟨hne, h⟩]
    · intro h
      rw [hsteps]
      unfold resolvePar
      rw [dif_neg (by
        intro hcontra
        exact h hcontra.2)]
  · intro params body rest hb
    show (if ('\'' : Char) = '@' then substLoop params .sawAt (body ++ '\'' :: rest)
      else if ('\'' : Char) = '\'' then '\'' :: substLoop params .quote (body ++ '\'' :: rest)
      else '\'' :: substLoop params .plain (body ++ '\'' :: rest)) =
        '\'' :: body ++ '\'' :: substLoop params .plain rest
    rw [if_neg (show ¬ ('\'' : Char) = '@' by decide), if_pos rfl,
      substLoop_quote_copy params body rest hb]
    simp

/-- Closed instance of C4's substitution law: `@p1` with one argument. -/
theorem c4_witness :
    substLoop [JsVal.vi64 7] ScanMode.plain ['@', 'p', '1'] = ['7'] := by
  have h := ((c4_substitute_params_scanner.1 [JsVal.vi64 7] 'p' ['1'] []
    (Or.inl rfl) (by decide) (by decide) (by decide)).1 ⟨by decide, by decide⟩)
  exact h.trans (by decide)

theorem wrap32_id (v : Int) (h1 : -(2 ^ 31) ≤ v) (h2 : v < 2 ^ 31) : wrap32 v = v := by
  unfold wrap32
  omega

theorem rust_era_eq (days : Int) (h1 : -(2 ^ 31) + 146096 ≤ days) (h2 : days < 2 ^ 31) :
    Int.tdiv (if 0 ≤ days then days else wrap32 (days - 146096)) 146097 =
      days / 146097 := by
  by_cases h : 0 ≤ days
  · rw [if_pos h, Int.tdiv_eq_ediv h (by norm_num)]
  · rw [if_neg h, wrap32_id _ (by omega) (by omega),
      show days - 146096 = -(146096 - days) by ring, Int.neg_tdiv,
      Int.tdiv_eq_ediv (by omega) (by norm_num)]
    omega

theorem unix_days_civil_decomp (d : Int) (h1 : -(2 ^ 31) ≤ d)
    (h2 : d + 719468 < 2 ^ 31) :
    unix_days_civil d =
      ((d + 719468) / 146097 * 400 +
          ((machine_inner ((d + 719468) % 146097).toNat).1 : Int),
        (machine_inner ((d + 719468) % 146097).toNat).2.1,
        (machine_inner ((d + 719468) % 146097).toNat).2.2) := by
  simp only [unix_days_civil, machine_inner]
  rw [wrap32_id (d + 719468) (by omega) h2,
    rust_era_eq (d + 719468) (by omega) h2]
  have hdoe : (d + 719468 - (d + 719468) / 146097 * 146097) % 2 ^ 32 =
      (d + 719468) % 146097 := by omega
  rw [hdoe]
  set doe := ((d + 719468) % 146097).toNat
  set era := (d + 719468) / 146097
  set yoe := s32 (a32 (s32 doe (doe / 1460)) (doe / 36524)) (doe / 146096) / 365
  set doy := s32 doe (s32 (a32 (m32 365 yoe) (yoe / 4)) (yoe / 100))
  set mp := a32 (m32 5 doy) 2 / 153
  by_cases hm : (if mp < 10 then mp + 3 else mp - 9) ≤ 2
  · rw [if_pos hm, if_pos hm]
    simp only [Prod.mk.injEq, and_true]
    push_cast
    ring
  · rw [if_neg hm, if_neg hm]
    simp only [Prod.mk.injEq, and_true]
    ring

theorem u2_mono (a b : Nat) (h : a ≤ b) : u2 a ≤ u2 b := by
  unfold u2
  omega

theorem sY_mono (a b : Nat) (h : a ≤ b) : sY a ≤ sY b := by
  unfold sY
  omega

theorem sY_le_u2 (x : Nat) : sY x ≤ u2 x := by
  unfold sY u2
  omega

set_option maxRecDepth 10000 in
set_option maxHeartbeats 1000000 in
theorem chk_gy_hi : ∀ y : Nat, y < 401 → (y = 0 ∨ u2 (gY y - 1) < 365 * y) := by
  decide

set_option maxRecDepth 10000 in
set_option maxHeartbeats 1000000 in
theorem chk_gy_lo : ∀ y : Nat, y < 400 → 365 * y ≤ sY (gY y) := by
  decide

set_option maxRecDepth 10000 in
set_option maxHeartbeats 4000000 in
theorem chk_month : ∀ doy : Nat, doy < 366 → ∀ b : Bool,
    (doy + 1 < (if b then 366 else 365) → advRel (doy + 1) = succRel b (advRel doy)) ∧
    (doy < (if b then 366 else 365) → 1 ≤ (mdY doy).1 ∧ (mdY doy).1 ≤ 12 ∧
      1 ≤ (mdY doy).2 ∧ (mdY doy).2 ≤ dimB b (mdY doy).1) := by
  decide

/-- The year-of-era block characterisation: each day-of-era lies in the
block of the year the correction formula assigns it. -/
theorem block_char (doe : Nat) (h : doe ≤ 146096) :
    yoeF doe ≤ 399 ∧ gY (yoeF doe) ≤ doe ∧
      doe < (if yoeF doe = 399 then 146097 else gY (yoeF doe + 1)) := by
  have hle : yoeF doe ≤ 399 := by
    have hs : sY doe ≤ 145999 := by
      by_cases hd : doe ≤ 146095
      · have h1 := sY_le_u2 doe
        have h2 := u2_mono doe 146095 hd
        have h3 : u2 146095 = 145998 := by decide
        omega
      · have hd' : doe = 146096 := by omega
        rw [hd']
        decide
    unfold yoeF
    omega
  have hlo : gY (yoeF doe) ≤ doe := by
    by_cases h0 : yoeF doe = 0
    · rw [h0]
      unfold gY
      omega
    · by_contra hcon
      have hb : doe ≤ gY (yoeF doe) - 1 := by omega
      have h1 := sY_le_u2 doe
      have h2 := u2_mono doe (gY (yoeF doe) - 1) hb
      rcases chk_gy_hi (yoeF doe) (by omega) with h3 | h3
      · exact h0 h3
      · have h4 : yoeF doe = sY doe / 365 := rfl
        omega
  refine ⟨hle, hlo, ?_⟩
  by_cases h399 : yoeF doe = 399
  · rw [if_pos h399]
    omega
  · rw [if_neg h399]
    by_contra hcon
    have hge : gY (yoeF doe + 1) ≤ doe := by omega
    have h1 := sY_mono (gY (yoeF doe + 1)) doe hge
    have h2 := chk_gy_lo (yoeF doe + 1) (by omega)
    have : 365 * (yoeF doe + 1) ≤ sY doe := by omega
    unfold yoeF at this
    omega

theorem gY_mono (a b : Nat) (h : a ≤ b) : gY a ≤ gY b := by
  have h1 : a / 4 ≤ b / 4 := Nat.div_le_div_right h
  have h2 : b / 100 - a / 100 ≤ b - a := by omega
  unfold gY
  omega

theorem gY_step (y : Nat) (h : y ≤ 398) : gY (y + 1) = gY y + lenN y := by
  have hlen : lenN y = if ((y + 1) % 4 = 0 ∧ ¬ (y + 1) % 100 = 0) ∨ (y + 1) % 400 = 0
      then 366 else 365 := by
    unfold lenN leapN
    by_cases hp : ((y + 1) % 4 = 0 ∧ ¬ (y + 1) % 100 = 0) ∨ (y + 1) % 400 = 0 <;>
      simp [hp]
  rw [hlen]
  unfold gY
  split <;> omega

/-- Uniqueness of the year-of-era block containing a given day. -/
theorem block_unique (doe y : Nat) (hdoe : doe ≤ 146096) (hy : y ≤ 399)
    (h1 : gY y ≤ doe) (h2 : doe < (if y = 399 then 146097 else gY (y + 1))) :
    yoeF doe = y := by
  obtain ⟨hle', hlo', hhi'⟩ := block_char doe hdoe
  set y' := yoeF doe with hy'
  rcases Nat.lt_trichotomy y' y with hlt | heq | hgt
  · exfalso
    have hby : gY (y' + 1) ≤ gY y := gY_mono _ _ (by omega)
    by_cases h399 : y' = 399
    · omega
    · rw [if_neg h399] at hhi'
      omega
  · exact heq
  · exfalso
    have hby : gY (y + 1) ≤ gY y' := gY_mono _ _ (by omega)
    by_cases h399 : y = 399
    · omega
    · rw [if_neg h399] at h2
      omega

theorem if_le_two_add (y t : Nat) :
    (if t ≤ 2 then y + 1 else y) = y + (if t ≤ 2 then 1 else 0) := by
  split <;> omega

theorem civil_inner_form (doe : Nat) :
    civil_inner doe =
      (yoeF doe + (advRel (doe - gY (yoeF doe))).1,
        (advRel (doe - gY (yoeF doe))).2.1,
        (advRel (doe - gY (yoeF doe))).2.2) := by
  simp only [civil_inner, advRel, yoeF, gY, sY, mdY]
  rw [if_le_two_add]

theorem lift_natCalSucc (y doy : Nat) (b : Bool) (hb : b = leapN (y + 1)) :
    natCalSucc (y + (advRel doy).1, (advRel doy).2.1, (advRel doy).2.2) =
      (y + (succRel b (advRel doy)).1, (succRel b (advRel doy)).2.1,
        (succRel b (advRel doy)).2.2) := by
  unfold advRel natCalSucc succRel
  set m := (mdY doy).1 with hm
  set d := (mdY doy).2 with hd
  have hdim : dimB (leapN (y + (if m ≤ 2 then 1 else 0))) m = dimB b m := by
    by_cases hm2 : m = 2
    · rw [hm2]
      rw [if_pos (by omega), hb]
    · unfold dimB
      rw [if_neg hm2, if_neg hm2]
  simp only []
  rw [hdim]
  by_cases h1 : d < dimB b m
  · rw [if_pos h1, if_pos h1]
  · rw [if_neg h1, if_neg h1]
    by_cases h2 : m < 12
    · rw [if_pos h2, if_pos h2]
    · rw [if_neg h2, if_neg h2]
      rw [Nat.add_assoc]

theorem natCalSucc_mk (yA m d : Nat) :
    natCalSucc (yA, m, d) =
      if d < dimB (leapN yA) m then (yA, m, d + 1)
      else if m < 12 then (yA, m + 1, 1)
      else (yA + 1, 1, 1) := rfl

theorem inner_succ (doe : Nat) (h : doe + 1 ≤ 146096) :
    civil_inner (doe + 1) = natCalSucc (civil_inner doe) := by
  obtain ⟨hy, hlo, hhi⟩ := block_char doe (by omega)
  set y := yoeF doe with hydef
  set doy := doe - gY y with hdoydef
  set b := leapN (y + 1) with hbdef
  have hlen : lenN y = if b then 366 else 365 := rfl
  have hub : (if b then 366 else 365) ≤ 366 := by split <;> omega
  have hdoylen : doy < (if b then 366 else 365) := by
    by_cases h399 : y = 399
    · have hb' : b = true := by
        rw [hbdef, h399]
        decide
      have hgy : gY y = 145731 := by
        rw [h399]
        decide
      rw [hb']
      show doy < 366
      omega
    · rw [if_neg h399] at hhi
      have hstep := gY_step y (by omega)
      omega
  by_cases hcase : doy + 1 < (if b then 366 else 365)
  · have hyoe1 : yoeF (doe + 1) = y := by
      have hb3 : doe + 1 < (if y = 399 then 146097 else gY (y + 1)) := by
        by_cases h399 : y = 399
        · rw [if_pos h399]
          omega
        · rw [if_neg h399]
          have hstep := gY_step y (by omega)
          omega
      exact block_unique (doe + 1) y h hy (by omega) hb3
    have hstep := (chk_month doy (by omega) b).1 hcase
    rw [civil_inner_form (doe + 1), civil_inner_form doe, hyoe1]
    rw [show doe + 1 - gY y = doy + 1 by omega, show doe - gY y = doy from rfl]
    rw [hstep]
    exact (lift_natCalSucc y doy b hbdef).symm
  · have hdoyeq : doy + 1 = (if b then 366 else 365) := by omega
    have h398 : y ≤ 398 := by
      by_cases h399 : y = 399
      · exfalso
        have hb' : b = true := by
          rw [hbdef, h399]
          decide
        have hgy : gY y = 145731 := by
          rw [h399]
          decide
        have h366 : (if b then 366 else 365) = 366 := by
          rw [hb']
          decide
        omega
      · omega
    have hstep := gY_step y (by omega)
    have hdoe1 : doe + 1 = gY (y + 1) := by omega
    have hyoe1 : yoeF (doe + 1) = y + 1 := by
      have hb3 : doe + 1 < (if y + 1 = 399 then 146097 else gY (y + 1 + 1)) := by
        by_cases h399' : y + 1 = 399
        · rw [if_pos h399']
          omega
        · rw [if_neg h399']
          have hstep2 := gY_step (y + 1) (by omega)
          have hlenpos : 365 ≤ lenN (y + 1) := by
            unfold lenN
            split <;> omega
          omega
      exact block_unique (doe + 1) (y + 1) h (by omega) (by omega) hb3
    rw [civil_inner_form (doe + 1), civil_inner_form doe, hyoe1]
    rw [show doe + 1 - gY (y + 1) = 0 by omega, show doe - gY y = doy from rfl]
    have hadv0 : advRel 0 = (0, 3, 1) := by decide
    rw [hadv0]
    cases hbv : b with
    | true =>
      have h366 : (if b then 366 else 365) = 366 := by
        rw [hbv]
        decide
      rw [show doy = 365 by omega, show advRel 365 = (1, 2, 29) from by decide]
      show (y + 1 + 0, 3, 1) = natCalSucc (y + 1, 2, 29)
      rw [natCalSucc_mk]
      rw [show dimB (leapN (y + 1)) 2 = 29 from by rw [← hbdef, hbv]; decide]
      simp
    | false =>
      have h365 : (if b then 366 else 365) = 365 := by
        rw [hbv]
        decide
      rw [show doy = 364 by omega, show advRel 364 = (1, 2, 28) from by decide]
      show (y + 1 + 0, 3, 1) = natCalSucc (y + 1, 2, 28)
      rw [natCalSucc_mk]
      rw [show dimB (leapN (y + 1)) 2 = 28 from by rw [← hbdef, hbv]; decide]
      simp

theorem s32_eq (x y : Nat) (hyx : y ≤ x) (hx : x < 2 ^ 32) : s32 x y = x - y := by
  unfold s32
  omega

theorem a32_eq (x y : Nat) (hxy : x + y < 2 ^ 32) : a32 x y = x + y :=
  Nat.mod_eq_of_lt hxy

theorem m32_eq (x y : Nat) (hxy : x * y < 2 ^ 32) : m32 x y = x * y :=
  Nat.mod_eq_of_lt hxy

theorem machine_eq (doe : Nat) (h : doe ≤ 146096) :
    machine_inner doe = civil_inner doe := by
  obtain ⟨hy, hlo, hhi⟩ := block_char doe h
  simp only [machine_inner, civil_inner]
  rw [s32_eq doe (doe / 1460) (by omega) (by omega)]
  rw [a32_eq (doe - doe / 1460) (doe / 36524) (by omega)]
  rw [s32_eq (doe - doe / 1460 + doe / 36524) (doe / 146096) (by omega) (by omega)]
  set yoe := (doe - doe / 1460 + doe / 36524 - doe / 146096) / 365 with hyd
  have hyoeF : yoe = yoeF doe := rfl
  have hy399 : yoe ≤ 399 := by
    rw [hyoeF]
    exact hy
  have hgy : 365 * yoe + yoe / 4 - yoe / 100 ≤ doe := by
    have h1 : gY (yoeF doe) ≤ doe := hlo
    rw [← hyoeF] at h1
    unfold gY at h1
    exact h1
  rw [m32_eq 365 yoe (by omega)]
  rw [a32_eq (365 * yoe) (yoe / 4) (by omega)]
  rw [s32_eq (365 * yoe + yoe / 4) (yoe / 100) (by omega) (by omega)]
  rw [s32_eq doe (365 * yoe + yoe / 4 - yoe / 100) hgy (by omega)]
  set doy := doe - (365 * yoe + yoe / 4 - yoe / 100) with hdd
  have hdoyb : doy ≤ doe := by omega
  rw [m32_eq 5 doy (by omega)]
  rw [a32_eq (5 * doy) 2 (by omega)]
  set mp := (5 * doy + 2) / 153 with hmd
  have hmpb : 153 * mp ≤ 5 * doy + 2 := by omega
  rw [m32_eq 153 mp (by omega)]
  rw [a32_eq (153 * mp) 2 (by omega)]
  rw [s32_eq doy ((153 * mp + 2) / 5) (by omega) (by omega)]
  rw [a32_eq (doy - (153 * mp + 2) / 5) 1 (by omega)]

theorem isLeap_bridge (e : Int) (yA : Nat) : isLeap (e * 400 + yA) = leapN yA := by
  unfold isLeap leapN
  rw [decide_eq_decide]
  omega

theorem daysInMonthG_shift (e : Int) (yA m : Nat) :
    daysInMonthG (e * 400 + yA) m = dimB (leapN yA) m := by
  unfold daysInMonthG dimB dim29
  rw [isLeap_bridge]
  by_cases h2 : m = 2
  · rw [if_pos h2, if_pos h2]
  · rw [if_neg h2, if_neg h2, if_neg h2]

theorem calSucc_mk (y : Int) (m d : Nat) :
    calSucc (y, m, d) =
      if d < daysInMonthG y m then (y, m, d + 1)
      else if m < 12 then (y, m + 1, 1)
      else (y + 1, 1, 1) := rfl

theorem calSucc_shift (e : Int) (yA m d : Nat) :
    calSucc (e * 400 + (yA : Int), m, d) =
      (e * 400 + ((natCalSucc (yA, m, d)).1 : Int),
        (natCalSucc (yA, m, d)).2.1, (natCalSucc (yA, m, d)).2.2) := by
  rw [calSucc_mk, natCalSucc_mk, daysInMonthG_shift]
  by_cases h1 : d < dimB (leapN yA) m
  · rw [if_pos h1, if_pos h1]
  · rw [if_neg h1, if_neg h1]
    by_cases h2 : m < 12
    · rw [if_pos h2, if_pos h2]
    · rw [if_neg h2, if_neg h2]
      simp only [Prod.mk.injEq, and_true]
      push_cast
      ring

theorem calSucc_feb29 (e : Int) :
    calSucc (e * 400 + (400 : Int), 2, 29) = (e * 400 + 400, 3, 1) := by
  have h400 : e * 400 + (400 : Int) = (e + 1) * 400 + ((0 : Nat) : Int) := by
    push_cast
    ring
  rw [h400, calSucc_mk, daysInMonthG_shift (e + 1) 0 2]
  rw [show dimB (leapN 0) 2 = 29 from by decide]
  rw [if_neg (by omega : ¬ (29 : Nat) < 29), if_pos (by omega : (2 : Nat) < 12)]

theorem spec_succ (z : Int) :
    civil_from_days_spec (z + 1) = calSucc (civil_from_days_spec z) := by
  simp only [civil_from_days_spec]
  rw [show z + 1 + 719468 = z + 719468 + 1 from by ring]
  set days := z + 719468 with hdays
  set doe := (days % 146097).toNat with hdoe
  by_cases hlast : doe = 146096
  · have he1 : (days + 1) / 146097 = days / 146097 + 1 := by omega
    have hd1 : ((days + 1) % 146097).toNat = 0 := by omega
    rw [he1, hd1, hlast]
    rw [show civil_inner 0 = (0, 3, 1) from by decide,
      show civil_inner 146096 = (400, 2, 29) from by decide]
    push_cast
    rw [calSucc_feb29 (days / 146097)]
    simp only [Prod.mk.injEq, and_true]
    ring
  · have he1 : (days + 1) / 146097 = days / 146097 := by omega
    have hd1 : ((days + 1) % 146097).toNat = doe + 1 := by omega
    rw [he1, hd1]
    rw [inner_succ doe (by omega)]
    rcases hci : civil_inner doe with ⟨yA, m, d⟩
    exact (calSucc_shift (days / 146097) yA m d).symm

theorem machine_refines_spec (d : Int) (h1 : -(2 ^ 31) ≤ d)
    (h2 : d + 719468 < 2 ^ 31) :
    unix_days_civil d = civil_from_days_spec d := by
  rw [unix_days_civil_decomp d h1 h2]
  have hdoe : ((d + 719468) % 146097).toNat ≤ 146096 := by omega
  rw [machine_eq _ hdoe]
  simp only [civil_from_days_spec]

/-- The claimed universal statement fails at the top of the `i32` range:
`unix_days + 719468` wraps for `unix_days = 2146764180`, so the rendered
date is one day off the floor-division civil-from-days date. -/
theorem c7_counterexample :
    unix_days_civil 2146764180 ≠ civil_from_days_spec 2146764180 ∧
    unix_days_to_iso 2146764180 ≠
      intPad 4 (civil_from_days_spec 2146764180).1 ++ "-" ++
        natPad 2 (civil_from_days_spec 2146764180).2.1 ++ "-" ++
        natPad 2 (civil_from_days_spec 2146764180).2.2 := by
  decide

/-- C7 (amended): whenever `unix_days + 719468` does not overflow `i32`
(that is, for every `i32` day count `d < 2 ^ 31 - 719468`),
`unix_days_to_iso`'s year/month/day triple agrees with Howard Hinnant's
civil-from-days computed with genuine floor division; that spec-side
function is anchored at `1970-01-01` for day 0 and maps `z + 1` to the
calendar successor of day `z` on the proleptic-Gregorian calendar, so on
the non-overflowing domain the code is the correct date conversion. The
claim's two formatted examples also hold. -/
theorem c7_unix_days_to_iso_civil :
    (∀ d : Int, -(2 ^ 31) ≤ d → d + 719468 < 2 ^ 31 →
        unix_days_civil d = civil_from_days_spec d) ∧
    civil_from_days_spec 0 = (1970, 1, 1) ∧
    (∀ z : Int, civil_from_days_spec (z + 1) = calSucc (civil_from_days_spec z)) ∧
    unix_days_to_iso 0 = "1970-01-01" ∧
    unix_days_to_iso (-1) = "1969-12-31" :=
  ⟨machine_refines_spec, by decide, spec_succ, by decide, by decide⟩

/-- The refinement and successor clauses of the C7 theorem instantiated at
concrete inputs. -/
theorem c7_witness :
    unix_days_civil 19000 = civil_from_days_spec 19000 ∧
    civil_from_days_spec (0 + 1) = calSucc (civil_from_days_spec 0) :=
  ⟨c7_unix_days_to_iso_civil.1 19000 (by decide) (by decide),
    c7_unix_days_to_iso_civil.2.2.1 0⟩

end Kibble
